import Mathlib

/-!
Verification of the font discovery/consolidation pipeline in
scripts/font_processor.py.

The filesystem is modelled as a finite tree of named entries.  File nodes
carry an abstract content string (what shutil.copy2 transports); directory
nodes carry an accessibility flag: os.listdir on an inaccessible directory
raises PermissionError, while stat-style tests (os.path.isdir, os.path.isfile,
os.path.exists) still succeed, which is the POSIX execute-without-read
permission situation the script's own try/except blocks anticipate.
Paths are lists of segments; the rendered string of a path (used by the
upload-root regular-expression search) is "/" followed by the segments
joined with "/".  Uncaught Python exceptions are modelled as Except.error.
-/

namespace FontProc

/-- Source line 25: the recognized font extensions. -/
def FONT_EXTENSIONS : List String := [".otf", ".ttf", ".woff", ".woff2", ".eot", ".tiff"]

/-- Source lines 27-29: a file is a font when its lowercased name ends with
one of the recognized extensions (str.lower modelled as per-character ASCII
lowercasing; the extensions themselves are ASCII). -/
def is_font_file (filename : String) : Bool :=
  FONT_EXTENSIONS.any fun ext =>
    List.isSuffixOf ext.data (filename.data.map Char.toLower)

/-- A node of the modelled filesystem: a file with abstract content, or a
directory with an accessibility flag (false = os.listdir raises
PermissionError) and a finite list of named children. -/
inductive Node where
  | file (content : String) : Node
  | dir (accessible : Bool) (entries : List (String × Node)) : Node

/-- The Python exceptions that can escape the modelled operations. -/
inductive PyError where
  | permissionError : PyError
  | fileNotFoundError : PyError
  | notADirectoryError : PyError
  | fileExistsError : PyError
deriving DecidableEq

/-- First entry with the given name, matching the unique-name lookup a real
directory performs. -/
def lookupName : List (String × Node) → String → Option Node
  | [], _ => none
  | (m, x) :: rest, n => if m = n then some x else lookupName rest n

/-- Resolve an absolute path (list of segments) in the tree.  Stat-style
operation: ignores accessibility flags. -/
def resolve : Node → List String → Option Node
  | n, [] => some n
  | Node.file _, _ :: _ => none
  | Node.dir _ es, seg :: rest =>
    match lookupName es seg with
    | some child => resolve child rest
    | none => none

/-- os.path.isdir. -/
def isDirAt (fs : Node) (p : List String) : Bool :=
  match resolve fs p with
  | some (Node.dir _ _) => true
  | _ => false

/-- os.path.isfile. -/
def isFileAt (fs : Node) (p : List String) : Bool :=
  match resolve fs p with
  | some (Node.file _) => true
  | _ => false

/-- os.path.exists. -/
def existsAt (fs : Node) (p : List String) : Bool :=
  (resolve fs p).isSome

/-- Content of the file at a path, if any. -/
def contentAt (fs : Node) (p : List String) : Option String :=
  match resolve fs p with
  | some (Node.file c) => some c
  | _ => none

/-- The path resolves to a directory that can be listed. -/
def dirAccessible (fs : Node) (p : List String) : Bool :=
  match resolve fs p with
  | some (Node.dir a _) => a
  | _ => false

/-- os.listdir: errors on a missing path, a file, or an unreadable
directory; otherwise yields the entries (name plus stat information). -/
def listdirE (fs : Node) (p : List String) : Except PyError (List (String × Node)) :=
  match resolve fs p with
  | some (Node.dir true es) => Except.ok es
  | some (Node.dir false _) => Except.error PyError.permissionError
  | some (Node.file _) => Except.error PyError.notADirectoryError
  | none => Except.error PyError.fileNotFoundError

/-- Replace the first entry with the given name, or append a new one. -/
def setEntry : List (String × Node) → String → Node → List (String × Node)
  | [], n, x => [(n, x)]
  | (m, y) :: rest, n, x =>
    if m = n then (n, x) :: rest else (m, y) :: setEntry rest n x

/-- Write a file (shutil.copy2 target / json.dump target): creates or
overwrites the file at the path when the parent chain of directories
exists; otherwise leaves the tree unchanged (the corresponding Python call
would raise, and every call site catches or guards that). -/
def insertFile : Node → List String → String → Node
  | fs, [], _ => fs
  | Node.file c, _ :: _, _ => Node.file c
  | Node.dir a es, [n], c => Node.dir a (setEntry es n (Node.file c))
  | Node.dir a es, n :: seg :: rest, c =>
    match lookupName es n with
    | some child => Node.dir a (setEntry es n (insertFile child (seg :: rest) c))
    | none => Node.dir a es

/-- A chain of fresh empty directories, as os.makedirs creates them. -/
def emptyDirChain : List String → Node
  | [] => Node.dir true []
  | n :: rest => Node.dir true [(n, emptyDirChain rest)]

/-- Source lines 87-91 (create_fonts_directory body): os.makedirs with
exist_ok=True.  Creates every missing component as a directory; raises
(returns none) when some component, including the last, already exists as a
file (NotADirectoryError / FileExistsError). -/
def makedirs : Node → List String → Option Node
  | Node.dir a es, [] => some (Node.dir a es)
  | Node.file _, _ => none
  | Node.dir a es, n :: rest =>
    match lookupName es n with
    | some child =>
      match makedirs child rest with
      | some c => some (Node.dir a (setEntry es n c))
      | none => none
    | none => some (Node.dir a (es ++ [(n, emptyDirChain rest)]))

/-- Basename of a path: its last segment. -/
def basename (p : List String) : String := p.getLastD ""

mutual
/-- Source lines 56-74 (inner scan_directory): returns immediately once
current_depth exceeds max_depth, catches PermissionError on an unreadable
directory (skipping it with a warning), otherwise processes each entry in
order. -/
def scanDir : List String → Node → Nat → Nat → List (List String)
  | _, Node.file _, _, _ => []
  | path, Node.dir a es, depth, maxd =>
    if maxd < depth then []
    else if a then scanEntries path es depth maxd else []

/-- Source lines 61-72: each file entry whose name is a font is collected;
each directory entry is recursed into with depth + 1 (the
fonts/font/document-fonts name test at line 68 only logs). -/
def scanEntries : List String → List (String × Node) → Nat → Nat → List (List String)
  | _, [], _, _ => []
  | path, (n, Node.file _) :: rest, depth, maxd =>
    (if is_font_file n then [path ++ [n]] else []) ++ scanEntries path rest depth maxd
  | path, (n, Node.dir a es) :: rest, depth, maxd =>
    scanDir (path ++ [n]) (Node.dir a es) (depth + 1) maxd ++ scanEntries path rest depth maxd
end

/-- Source lines 76-83: the top-level loop over the scanned directory skips
the entry named FontUploads, recurses into directory entries with depth 0,
and ignores plain files at the top level. -/
def topScanEntries : List String → List (String × Node) → Nat → List (List String)
  | _, [], _ => []
  | path, (n, child) :: rest, maxd =>
    if n = "FontUploads" then topScanEntries path rest maxd
    else
      match child with
      | Node.dir a es => scanDir (path ++ [n]) (Node.dir a es) 0 maxd ++ topScanEntries path rest maxd
      | Node.file _ => topScanEntries path rest maxd

/-- Source lines 31-85 (scan_for_fonts): first the FontUploads priority
pass (lines 45-53, non-recursive, its os.listdir uncaught), then the
os.listdir of the scanned directory itself (line 77, uncaught), then the
bounded recursive walk of the other subdirectories. -/
def scan_for_fonts (fs : Node) (directory : List String) (maxd : Nat) :
    Except PyError (List (List String)) :=
  let fuPath := directory ++ ["FontUploads"]
  let part1E : Except PyError (List (List String)) :=
    if isDirAt fs fuPath then
      match listdirE fs fuPath with
      | Except.error e => Except.error e
      | Except.ok es =>
        Except.ok (es.filterMap fun it =>
          match it with
          | (n, Node.file _) => if is_font_file n then some (fuPath ++ [n]) else none
          | _ => none)
    else Except.ok []
  match part1E with
  | Except.error e => Except.error e
  | Except.ok part1 =>
    match listdirE fs directory with
    | Except.error e => Except.error e
    | Except.ok es => Except.ok (part1 ++ topScanEntries directory es maxd)

/-- One entry of the copiedFonts list (source lines 121-125). -/
structure CopyRecord where
  source : List String
  destination : List String
  originalName : String
deriving DecidableEq

/-- Source lines 93-132 (copy_fonts).  The rel_path of line 109 is computed
and discarded by the original code; the destination is always
destination_dir joined with the basename (lines 113-116).  The copy happens
only when the destination does not already exist (line 119); shutil.copy2
failures (source not a readable file, destination parent not a directory)
are caught per file at lines 129-130, producing no record. -/
def copy_fonts : Node → List (List String) → List String → List CopyRecord × Node
  | fs, [], _ => ([], fs)
  | fs, f :: rest, destDir =>
    let filename := basename f
    let destination := destDir ++ [filename]
    if existsAt fs destination then copy_fonts fs rest destDir
    else if isFileAt fs f && isDirAt fs destDir then
      let fs1 := insertFile fs destination ((contentAt fs f).getD "")
      let out := copy_fonts fs1 rest destDir
      ({ source := f, destination := destination, originalName := filename } :: out.1, out.2)
    else copy_fonts fs rest destDir

/-- Rendered string of an absolute path, as str(pathlib.Path) produces it
on POSIX: "/" for the root, "/" followed by the segments joined with "/"
otherwise. -/
def pathString (p : List String) : String := "/" ++ String.intercalate "/" p

/-- The characters of the regex class [^\\/:*?"<>|] complement (source
line 161). -/
def RESERVED_CHARS : List Char := ['\\', '/', ':', '*', '?', '"', '<', '>', '|']

/-- The tail of the regex: one or more characters, none reserved, reaching
the end of the string. -/
def tailClean (l : List Char) : Bool :=
  (decide (l ≠ [])) && l.all fun c => decide (c ∉ RESERVED_CHARS)

/-- Whether the pattern uploads[\\/][^\\/:*?"<>|]+$ matches starting at the
head of the character list. -/
def matchesHere : List Char → Bool
  | 'u' :: 'p' :: 'l' :: 'o' :: 'a' :: 'd' :: 's' :: c :: rest =>
    (c = '/' || c = '\\') && tailClean rest
  | _ => false

/-- re.search of the pattern uploads[\\/][^\\/:*?"<>|]+$ : the pattern
matches starting at some position of the string (source line 161). -/
def reSearchUploads : List Char → Bool
  | [] => false
  | c :: t => matchesHere (c :: t) || reSearchUploads t

/-- Whether the literal substring uploads occurs starting at the head. -/
def uploadsHere : List Char → Bool
  | 'u' :: 'p' :: 'l' :: 'o' :: 'a' :: 'd' :: 's' :: _ => true
  | _ => false

/-- Python's "uploads" in s substring test (source line 161). -/
def containsUploads : List Char → Bool
  | [] => false
  | c :: t => uploadsHere (c :: t) || containsUploads t

/-- The full condition of source line 161 on the rendered path string. -/
def uploadRootCond (p : List String) : Bool :=
  containsUploads (pathString p).data && reSearchUploads (pathString p).data

/-- Source lines 159-168: up to fuel iterations, test the condition on the
current path, stop with none when the parent equals the current path (the
filesystem root, modelled as the empty segment list). -/
def findUploadRoot : Nat → List String → Option (List String)
  | 0, _ => none
  | Nat.succ k, cur =>
    if uploadRootCond cur then some cur
    else if cur.isEmpty then none
    else findUploadRoot k cur.dropLast

/-- Source lines 155-173: the Upload-Root Resolver; falls back to the
input path when the three-iteration walk finds no match. -/
def resolveUploadRoot (p : List String) : List String :=
  (findUploadRoot 3 p).getD p

/-- The result dictionary of process_upload_directory.  Option encodes
presence of the corresponding key in the Python dict: the failure dict of
lines 149-153 has only success, error and directory; the no-fonts dict of
lines 186-193 lacks error and copiedFonts; the full dict of lines 203-211
lacks only error. -/
structure PyResult where
  success : Bool
  error : Option String
  fontsFound : Option Nat
  fontsCopied : Option Nat
  directory : List String
  uploadRoot : Option (List String)
  fontsDirectory : Option (List String)
  copiedFonts : Option (List CopyRecord)
deriving DecidableEq

/-- Source lines 134-220 (process_upload_directory).  Returns the result
dict, the final filesystem, and the object handed to json.dump when the
summary write was attempted and succeeded.  writeOk is an environment
input deciding whether the guarded json write of lines 214-218 raises; its
failure is caught and only logged.  Uncaught exceptions of the body
(os.listdir of the scan root or of FontUploads, os.makedirs) surface as
Except.error. -/
def process_upload_directory (fs : Node) (upload_dir : List String) (writeOk : Bool) :
    Except PyError (PyResult × Node × Option PyResult) :=
  if isDirAt fs upload_dir then
    let upload_root := resolveUploadRoot upload_dir
    match scan_for_fonts fs upload_dir 3 with
    | Except.error e => Except.error e
    | Except.ok font_files =>
      let fonts_dir := upload_root ++ ["Fonts"]
      if font_files.isEmpty then
        match makedirs fs fonts_dir with
        | none => Except.error PyError.fileExistsError
        | some fs1 =>
          Except.ok
            ({ success := true, error := none, fontsFound := some 0,
               fontsCopied := some 0, directory := upload_dir,
               uploadRoot := some upload_root, fontsDirectory := some fonts_dir,
               copiedFonts := none }, fs1, none)
      else
        match makedirs fs fonts_dir with
        | none => Except.error PyError.fileExistsError
        | some fs1 =>
          let out := copy_fonts fs1 font_files fonts_dir
          let result : PyResult :=
            { success := true, error := none, fontsFound := some font_files.length,
              fontsCopied := some out.1.length, directory := upload_dir,
              uploadRoot := some upload_root, fontsDirectory := some fonts_dir,
              copiedFonts := some out.1 }
          let fs3 :=
            if writeOk then
              insertFile out.2 (upload_dir ++ ["font_processing_summary.json"]) "summary"
            else out.2
          Except.ok (result, fs3, if writeOk then some result else none)
  else
    Except.ok
      ({ success := false, error := some "Directory not found",
         fontsFound := none, fontsCopied := none, directory := upload_dir,
         uploadRoot := none, fontsDirectory := none, copiedFonts := none }, fs, none)

/-- Source lines 222-249 (main), for an invocation whose directory argument
has been determined: exit code 0 when the result has success true, 1 when
it has success false; an uncaught exception of the body propagates. -/
def main_result (fs : Node) (directory : List String) (writeOk : Bool) :
    Except PyError Nat :=
  match process_upload_directory fs directory writeOk with
  | Except.error e => Except.error e
  | Except.ok (r, _, _) => Except.ok (if r.success then 0 else 1)

mutual
/-- Whether the subtree rooted at a node contains, at any depth, a file
entry whose name is recognized as a font. -/
def nodeHasFont : Node → Bool
  | Node.file _ => false
  | Node.dir _ es => entriesHaveFont es

/-- Whether some entry of the list is a font file or a directory whose
subtree contains one. -/
def entriesHaveFont : List (String × Node) → Bool
  | [] => false
  | (n, Node.file _) :: rest => is_font_file n || entriesHaveFont rest
  | (_, Node.dir a es) :: rest => nodeHasFont (Node.dir a es) || entriesHaveFont rest
end

/-- The candidate paths the resolver loop of lines 159-168 examines, in
order: the input path, its parent, and its grandparent, the walk stopping
early once the filesystem root has been examined. -/
def resolverCandidates (p : List String) : List (List String) :=
  p :: (if p.isEmpty then [] else
    p.dropLast :: (if p.dropLast.isEmpty then [] else [p.dropLast.dropLast]))

/-- An existing directory that cannot be listed: os.path.isdir succeeds but
the uncaught os.listdir of scan_for_fonts line 77 raises PermissionError. -/
def fsC1 : Node := Node.dir true [("up", Node.dir false [])]

/-- A fully accessible empty upload directory. -/
def fsC1w : Node := Node.dir true [("up", Node.dir true [])]

/-- An upload directory with no font files but with a plain file named
Fonts at the resolved upload root, obstructing os.makedirs. -/
def fsC3 : Node := Node.dir true [("u", Node.dir true [("Fonts", Node.file "x")])]

/-- Entries of a font-free upload directory. -/
def fsC3wEs : List (String × Node) :=
  [("doc", Node.dir true [("a.txt", Node.file "t")])]

/-- A fully accessible upload directory containing no font files. -/
def fsC3w : Node := Node.dir true [("u", Node.dir true fsC3wEs)]

/-- A source tree plus an empty Fonts destination directory. -/
def fsC4 : Node := Node.dir true
  [("s", Node.dir true [("x.ttf", Node.file "1")]), ("Fonts", Node.dir true [])]

/-- A source tree plus an empty Fonts destination directory. -/
def fsC5 : Node := Node.dir true
  [("s", Node.dir true [("n.ttf", Node.file "2")]), ("Fonts", Node.dir true [])]

/-- An upload directory holding a font file and also a plain file named
Fonts at the resolved upload root, obstructing os.makedirs. -/
def fsC6 : Node := Node.dir true [("u", Node.dir true
  [("Fonts", Node.file "x"), ("a", Node.dir true [("x.ttf", Node.file "f")])])]

/-- An accessible upload directory holding one font file and nothing else. -/
def fsC6w : Node := Node.dir true
  [("u", Node.dir true [("a", Node.dir true [("x.ttf", Node.file "f")])])]

/-- The scenario of the spec: a FontUploads child holding A.ttf next to a
nested assets/Fonts/B.otf. -/
def fs7 : Node := Node.dir true [("u", Node.dir true
  [("FontUploads", Node.dir true [("A.ttf", Node.file "a")]),
   ("assets", Node.dir true [("Fonts", Node.dir true [("B.otf", Node.file "b")])])])]

/-- The tree of fs7 after the orchestrator has created the Fonts directory
at the resolved upload root, as handed to the Consolidator. -/
def fs7F : Node := (makedirs fs7 ["u", "Fonts"]).getD fs7

/-- A chain of directories u/a/b/c/d with a font file in d, four directory
levels below the scanned root. -/
def fs9 : Node := Node.dir true [("u", Node.dir true
  [("a", Node.dir true [("b", Node.dir true [("c", Node.dir true
    [("d", Node.dir true [("f.ttf", Node.file "f")])])])])])]

/-- A root holding a font file directly at its top level next to a
subdirectory with another font file. -/
def fsC10 : Node := Node.dir true
  [("u", Node.dir true [("x.ttf", Node.file "1"),
    ("sub", Node.dir true [("y.otf", Node.file "2")])])]

theorem lookupName_setEntry_self (es : List (String × Node)) (n : String) (x : Node) :
    lookupName (setEntry es n x) n = some x := by
  induction es with
  | nil => simp [setEntry, lookupName]
  | cons hd tl ih =>
    obtain ⟨m, y⟩ := hd
    by_cases h : m = n
    · simp [setEntry, lookupName, h]
    · simp [setEntry, lookupName, h, ih]

theorem lookupName_setEntry_ne (es : List (String × Node)) (n m : String) (x : Node)
    (h : m ≠ n) : lookupName (setEntry es n x) m = lookupName es m := by
  induction es with
  | nil => simp [setEntry, lookupName, Ne.symm h]
  | cons hd tl ih =>
    obtain ⟨m1, y⟩ := hd
    by_cases h1 : m1 = n
    · subst h1
      simp [setEntry, lookupName, Ne.symm h]
    · simp [setEntry, lookupName, h1, ih]

theorem lookupName_append_left (es ys : List (String × Node)) (m : String) (x : Node)
    (h : lookupName es m = some x) : lookupName (es ++ ys) m = some x := by
  induction es with
  | nil => simp [lookupName] at h
  | cons hd tl ih =>
    obtain ⟨m1, y⟩ := hd
    by_cases h1 : m1 = m
    · simp [lookupName, h1] at h ⊢
      exact h
    · simp [lookupName, h1] at h ⊢
      exact ih h

theorem lookupName_append_right (es : List (String × Node)) (n : String) (x : Node)
    (h : lookupName es n = none) : lookupName (es ++ [(n, x)]) n = some x := by
  induction es with
  | nil => simp [lookupName]
  | cons hd tl ih =>
    obtain ⟨m1, y⟩ := hd
    by_cases h1 : m1 = n
    · simp [lookupName, h1] at h
    · simp [lookupName, h1] at h ⊢
      exact ih h

theorem resolve_append (fs : Node) (a b : List String) :
    resolve fs (a ++ b) = (resolve fs a).bind fun n => resolve n b := by
  induction a generalizing fs with
  | nil => simp [resolve]
  | cons s rest ih =>
    cases fs with
    | file c => simp [resolve]
    | dir acc es =>
      cases h : lookupName es s with
      | some child => simp [resolve, h, ih]
      | none => simp [resolve, h]

theorem insertFile_keeps_file (q : List String) :
    ∀ (fs : Node) (c : String) (p : List String) (c0 : String),
      existsAt fs q = false → resolve fs p = some (Node.file c0) →
      resolve (insertFile fs q c) p = some (Node.file c0) := by
  induction q with
  | nil =>
    intro fs c p c0 _ hp
    simpa [insertFile] using hp
  | cons n qt ih =>
    intro fs c p c0 hq hp
    cases fs with
    | file c1 => simpa [insertFile] using hp
    | dir a es =>
      cases qt with
      | nil =>
        have hl : lookupName es n = none := by
          cases h : lookupName es n with
          | none => rfl
          | some child => simp [existsAt, resolve, h] at hq
        cases p with
        | nil => simp [resolve] at hp
        | cons m pt =>
          by_cases hmn : m = n
          · subst hmn
            simp [resolve, hl] at hp
          · have hset := lookupName_setEntry_ne es n m (Node.file c) hmn
            cases h2 : lookupName es m with
            | none => simp [resolve, h2] at hp
            | some child =>
              rw [resolve, h2] at hp
              simp only [insertFile, resolve, hset, h2]
              exact hp
      | cons seg rest =>
        cases hln : lookupName es n with
        | none =>
          simpa [insertFile, hln] using hp
        | some child =>
          have hq2 : existsAt child (seg :: rest) = false := by
            simpa [existsAt, resolve, hln] using hq
          cases p with
          | nil => simp [resolve] at hp
          | cons m pt =>
            by_cases hmn : m = n
            · subst hmn
              rw [resolve, hln] at hp
              have hset := lookupName_setEntry_self es m (insertFile child (seg :: rest) c)
              simp only [insertFile, hln, resolve, hset]
              exact ih child c pt c0 hq2 hp
            · have hset := lookupName_setEntry_ne es n m
                (insertFile child (seg :: rest) c) hmn
              cases h2 : lookupName es m with
              | none => simp [resolve, h2] at hp
              | some child2 =>
                rw [resolve, h2] at hp
                simp only [insertFile, hln, resolve, hset, h2]
                exact hp

theorem insertFile_keeps_dir (q : List String) :
    ∀ (fs : Node) (c : String) (p : List String) (a0 : Bool) (es0 : List (String × Node)),
      existsAt fs q = false → resolve fs p = some (Node.dir a0 es0) →
      ∃ a1 es1, resolve (insertFile fs q c) p = some (Node.dir a1 es1) := by
  induction q with
  | nil =>
    intro fs c p a0 es0 _ hp
    exact ⟨a0, es0, by simpa [insertFile] using hp⟩
  | cons n qt ih =>
    intro fs c p a0 es0 hq hp
    cases fs with
    | file c1 => exact ⟨a0, es0, by simpa [insertFile] using hp⟩
    | dir a es =>
      cases qt with
      | nil =>
        have hl : lookupName es n = none := by
          cases h : lookupName es n with
          | none => rfl
          | some child => simp [existsAt, resolve, h] at hq
        cases p with
        | nil =>
          refine ⟨a, setEntry es n (Node.file c), ?_⟩
          simp [insertFile, resolve]
        | cons m pt =>
          by_cases hmn : m = n
          · subst hmn
            simp [resolve, hl] at hp
          · have hset := lookupName_setEntry_ne es n m (Node.file c) hmn
            cases h2 : lookupName es m with
            | none => simp [resolve, h2] at hp
            | some child =>
              rw [resolve, h2] at hp
              refine ⟨a0, es0, ?_⟩
              simp only [insertFile, resolve, hset, h2]
              exact hp
      | cons seg rest =>
        cases hln : lookupName es n with
        | none =>
          exact ⟨a0, es0, by simpa [insertFile, hln] using hp⟩
        | some child =>
          have hq2 : existsAt child (seg :: rest) = false := by
            simpa [existsAt, resolve, hln] using hq
          cases p with
          | nil =>
            refine ⟨a, setEntry es n (insertFile child (seg :: rest) c), ?_⟩
            simp [insertFile, hln, resolve]
          | cons m pt =>
            by_cases hmn : m = n
            · subst hmn
              rw [resolve, hln] at hp
              have hset := lookupName_setEntry_self es m (insertFile child (seg :: rest) c)
              obtain ⟨a1, es1, h1⟩ := ih child c pt a0 es0 hq2 hp
              refine ⟨a1, es1, ?_⟩
              simp only [insertFile, hln, resolve, hset]
              exact h1
            · have hset := lookupName_setEntry_ne es n m
                (insertFile child (seg :: rest) c) hmn
              cases h2 : lookupName es m with
              | none => simp [resolve, h2] at hp
              | some child2 =>
                rw [resolve, h2] at hp
                refine ⟨a0, es0, ?_⟩
                simp only [insertFile, hln, resolve, hset, h2]
                exact hp

theorem insertFile_exists_mono (q : List String) (fs : Node) (c : String) (p : List String)
    (hq : existsAt fs q = false) (hp : existsAt fs p = true) :
    existsAt (insertFile fs q c) p = true := by
  unfold existsAt at hp ⊢
  cases h : resolve fs p with
  | none => rw [h] at hp; simp at hp
  | some x =>
    cases x with
    | file c0 => rw [insertFile_keeps_file q fs c p c0 hq h]; rfl
    | dir a0 es0 =>
      obtain ⟨a1, es1, h1⟩ := insertFile_keeps_dir q fs c p a0 es0 hq h
      rw [h1]; rfl

theorem insertFile_dir_reflect (q : List String) :
    ∀ (fs : Node) (c : String) (p : List String),
      isDirAt (insertFile fs q c) p = true → isDirAt fs p = true := by
  induction q with
  | nil => intro fs c p h; simpa [insertFile] using h
  | cons n qt ih =>
    intro fs c p h
    cases fs with
    | file c1 => simpa [insertFile] using h
    | dir a es =>
      cases qt with
      | nil =>
        cases p with
        | nil => simp [isDirAt, resolve]
        | cons m pt =>
          by_cases hmn : m = n
          · subst hmn
            have hset := lookupName_setEntry_self es m (Node.file c)
            simp only [insertFile, isDirAt, resolve, hset] at h
            cases pt with
            | nil => simp [resolve] at h
            | cons x xt => simp [resolve] at h
          · have hset := lookupName_setEntry_ne es n m (Node.file c) hmn
            simp only [insertFile, isDirAt, resolve, hset] at h
            simp only [isDirAt, resolve]
            exact h
      | cons seg rest =>
        cases hln : lookupName es n with
        | none => simpa [insertFile, hln] using h
        | some child =>
          cases p with
          | nil => simp [isDirAt, resolve]
          | cons m pt =>
            by_cases hmn : m = n
            · subst hmn
              have hset := lookupName_setEntry_self es m (insertFile child (seg :: rest) c)
              simp only [insertFile, hln, isDirAt, resolve, hset] at h
              have h2 : isDirAt (insertFile child (seg :: rest) c) pt = true := by
                simpa [isDirAt] using h
              have h3 := ih child c pt h2
              simp only [isDirAt, resolve, hln]
              simpa [isDirAt] using h3
            · have hset := lookupName_setEntry_ne es n m
                (insertFile child (seg :: rest) c) hmn
              simp only [insertFile, hln, isDirAt, resolve, hset] at h
              simp only [isDirAt, resolve]
              exact h

theorem insertFile_file_new (q : List String) :
    ∀ (fs : Node) (c : String) (p : List String),
      isFileAt (insertFile fs q c) p = true → isFileAt fs p = true ∨ p = q := by
  induction q with
  | nil => intro fs c p h; exact Or.inl (by simpa [insertFile] using h)
  | cons n qt ih =>
    intro fs c p h
    cases fs with
    | file c1 => exact Or.inl (by simpa [insertFile] using h)
    | dir a es =>
      cases qt with
      | nil =>
        cases p with
        | nil => simp [isFileAt, resolve] at h
        | cons m pt =>
          by_cases hmn : m = n
          · subst hmn
            have hset := lookupName_setEntry_self es m (Node.file c)
            simp only [insertFile, isFileAt, resolve, hset] at h
            cases pt with
            | nil => exact Or.inr rfl
            | cons x xt => simp [resolve] at h
          · have hset := lookupName_setEntry_ne es n m (Node.file c) hmn
            simp only [insertFile, isFileAt, resolve, hset] at h
            exact Or.inl (by simp only [isFileAt, resolve]; exact h)
      | cons seg rest =>
        cases hln : lookupName es n with
        | none => exact Or.inl (by simpa [insertFile, hln] using h)
        | some child =>
          cases p with
          | nil => simp [isFileAt, insertFile, hln, resolve] at h
          | cons m pt =>
            by_cases hmn : m = n
            · subst hmn
              have hset := lookupName_setEntry_self es m (insertFile child (seg :: rest) c)
              simp only [insertFile, hln, isFileAt, resolve, hset] at h
              have h2 : isFileAt (insertFile child (seg :: rest) c) pt = true := by
                simpa [isFileAt] using h
              rcases ih child c pt h2 with h3 | h3
              · exact Or.inl (by
                  simp only [isFileAt, resolve, hln]
                  simpa [isFileAt] using h3)
              · exact Or.inr (by rw [h3])
            · have hset := lookupName_setEntry_ne es n m
                (insertFile child (seg :: rest) c) hmn
              simp only [insertFile, hln, isFileAt, resolve, hset] at h
              exact Or.inl (by simp only [isFileAt, resolve]; exact h)

theorem insertFile_concat_self (d : List String) :
    ∀ (fs : Node) (n : String) (c : String), isDirAt fs d = true →
      resolve (insertFile fs (d ++ [n]) c) (d ++ [n]) = some (Node.file c) := by
  induction d with
  | nil =>
    intro fs n c hd
    cases fs with
    | file c1 => simp [isDirAt, resolve] at hd
    | dir a es =>
      have hset := lookupName_setEntry_self es n (Node.file c)
      simp only [List.nil_append, insertFile, resolve, hset]
  | cons m dt ih =>
    intro fs n c hd
    cases fs with
    | file c1 => simp [isDirAt, resolve] at hd
    | dir a es =>
      cases hlm : lookupName es m with
      | none => simp [isDirAt, resolve, hlm] at hd
      | some child =>
        have hd2 : isDirAt child dt = true := by
          simpa [isDirAt, resolve, hlm] using hd
        have hne : dt ++ [n] ≠ [] := by simp
        cases hdt : dt ++ [n] with
        | nil => exact absurd hdt hne
        | cons seg rest =>
          have hset := lookupName_setEntry_self es m (insertFile child (seg :: rest) c)
          have hmain := ih child n c hd2
          rw [hdt] at hmain
          simp only [List.cons_append, hdt, insertFile, hlm, resolve, hset]
          exact hmain

theorem makedirs_concat_some (a : List String) :
    ∀ (fs : Node) (n : String), isDirAt fs a = true → isFileAt fs (a ++ [n]) = false →
      ∃ fs1, makedirs fs (a ++ [n]) = some fs1 ∧ isDirAt fs1 (a ++ [n]) = true := by
  induction a with
  | nil =>
    intro fs n hd hnf
    cases fs with
    | file c => simp [isDirAt, resolve] at hd
    | dir x es =>
      cases hln : lookupName es n with
      | some child =>
        cases child with
        | file c => simp [isFileAt, resolve, hln] at hnf
        | dir b es2 =>
          refine ⟨Node.dir x (setEntry es n (Node.dir b es2)), ?_, ?_⟩
          · simp [makedirs, hln]
          · have hset := lookupName_setEntry_self es n (Node.dir b es2)
            simp [isDirAt, resolve, hset]
      | none =>
        refine ⟨Node.dir x (es ++ [(n, emptyDirChain [])]), ?_, ?_⟩
        · simp [makedirs, hln]
        · have hap := lookupName_append_right es n (emptyDirChain []) hln
          simp only [emptyDirChain] at hap
          simp [isDirAt, resolve, hap, emptyDirChain]
  | cons m at1 ih =>
    intro fs n hd hnf
    cases fs with
    | file c => simp [isDirAt, resolve] at hd
    | dir x es =>
      cases hlm : lookupName es m with
      | none => simp [isDirAt, resolve, hlm] at hd
      | some child =>
        have hd2 : isDirAt child at1 = true := by
          simpa [isDirAt, resolve, hlm] using hd
        have hnf2 : isFileAt child (at1 ++ [n]) = false := by
          simpa [isFileAt, resolve, hlm] using hnf
        obtain ⟨c1, hmk, hdir⟩ := ih child n hd2 hnf2
        refine ⟨Node.dir x (setEntry es m c1), ?_, ?_⟩
        · simp [makedirs, hlm, hmk]
        · have hset := lookupName_setEntry_self es m c1
          simp only [List.cons_append, isDirAt, resolve, hset]
          simpa [isDirAt] using hdir

theorem makedirs_dir_mono (q : List String) :
    ∀ (fs fs1 : Node) (p : List String), makedirs fs q = some fs1 →
      isDirAt fs p = true → isDirAt fs1 p = true := by
  induction q with
  | nil =>
    intro fs fs1 p hmk hp
    cases fs with
    | file c => simp [makedirs] at hmk
    | dir a es =>
      simp [makedirs] at hmk
      rw [← hmk]; exact hp
  | cons n rest ih =>
    intro fs fs1 p hmk hp
    cases fs with
    | file c => simp [makedirs] at hmk
    | dir a es =>
      cases hln : lookupName es n with
      | some child =>
        cases hrec : makedirs child rest with
        | none => simp [makedirs, hln, hrec] at hmk
        | some c1 =>
          simp [makedirs, hln, hrec] at hmk
          subst hmk
          cases p with
          | nil => simp [isDirAt, resolve]
          | cons m pt =>
            by_cases hmn : m = n
            · subst hmn
              have hchild : isDirAt child pt = true := by
                simpa [isDirAt, resolve, hln] using hp
              have hset := lookupName_setEntry_self es m c1
              simp only [isDirAt, resolve, hset]
              have := ih child c1 pt hrec hchild
              simpa [isDirAt] using this
            · have hset := lookupName_setEntry_ne es n m c1 hmn
              simp only [isDirAt, resolve, hset]
              simpa [isDirAt, resolve] using hp
      | none =>
        simp [makedirs, hln] at hmk
        subst hmk
        cases p with
        | nil => simp [isDirAt, resolve]
        | cons m pt =>
          cases hlm : lookupName es m with
          | none => simp [isDirAt, resolve, hlm] at hp
          | some ch =>
            have hap := lookupName_append_left es [(n, emptyDirChain rest)] m ch hlm
            simp only [isDirAt, resolve, hap]
            simpa [isDirAt, resolve, hlm] using hp

theorem findUploadRoot_sub (k : Nat) :
    ∀ (cur r : List String), findUploadRoot k cur = some r → ∃ t, r ++ t = cur := by
  induction k with
  | zero => intro cur r h; simp [findUploadRoot] at h
  | succ k2 ih =>
    intro cur r h
    by_cases hc : uploadRootCond cur = true
    · simp [findUploadRoot, hc] at h
      exact ⟨[], by simp [h]⟩
    · by_cases he : cur.isEmpty
      · simp [findUploadRoot, hc, he] at h
      · simp only [findUploadRoot, hc, if_false, Bool.not_eq_true] at h
        rw [if_neg (by simp [hc]), if_neg (by simpa using he)] at h
        obtain ⟨t1, ht1⟩ := ih cur.dropLast r h
        have hne : cur ≠ [] := by simpa [List.isEmpty_iff] using he
        refine ⟨t1 ++ [cur.getLast hne], ?_⟩
        rw [← List.append_assoc, ht1, List.dropLast_append_getLast hne]

theorem resolveUploadRoot_sub (p : List String) :
    ∃ t, resolveUploadRoot p ++ t = p := by
  unfold resolveUploadRoot
  cases h : findUploadRoot 3 p with
  | none => exact ⟨[], by simp⟩
  | some r => simpa using findUploadRoot_sub 3 p r h

theorem isDirAt_of_append (fs : Node) (a b : List String)
    (h : isDirAt fs (a ++ b) = true) : isDirAt fs a = true := by
  unfold isDirAt at h ⊢
  rw [resolve_append] at h
  cases ha : resolve fs a with
  | none => rw [ha] at h; simp at h
  | some x =>
    rw [ha] at h
    cases x with
    | dir a0 es0 => rfl
    | file c =>
      cases b with
      | nil => simp [resolve] at h
      | cons s t => simp [resolve] at h

theorem isDirAt_resolve (fs : Node) (p : List String) :
    isDirAt fs p = true ↔ ∃ a es, resolve fs p = some (Node.dir a es) := by
  unfold isDirAt
  cases h : resolve fs p with
  | none => simp
  | some x => cases x <;> simp

theorem isFileAt_resolve (fs : Node) (p : List String) :
    isFileAt fs p = true ↔ ∃ c, resolve fs p = some (Node.file c) := by
  unfold isFileAt
  cases h : resolve fs p with
  | none => simp
  | some x => cases x <;> simp

theorem existsAt_of_isFileAt (fs : Node) (p : List String)
    (h : isFileAt fs p = true) : existsAt fs p = true := by
  obtain ⟨c, hc⟩ := (isFileAt_resolve fs p).mp h
  simp [existsAt, hc]

theorem basename_concat (d : List String) (s : String) : basename (d ++ [s]) = s := by
  simp [basename, List.getLastD_concat]

theorem copy_fonts_exists_mono (l : List (List String)) :
    ∀ (fs : Node) (d p : List String), existsAt fs p = true →
      existsAt (copy_fonts fs l d).2 p = true := by
  induction l with
  | nil => intro fs d p hp; simpa [copy_fonts] using hp
  | cons f rest ih =>
    intro fs d p hp
    by_cases h1 : existsAt fs (d ++ [basename f]) = true
    · simpa [copy_fonts, h1] using ih fs d p hp
    · have h1f : existsAt fs (d ++ [basename f]) = false := by
        simpa using h1
      by_cases h2 : (isFileAt fs f && isDirAt fs d) = true
      · have hp2 := insertFile_exists_mono (d ++ [basename f]) fs
          ((contentAt fs f).getD "") p h1f hp
        have hrest := ih (insertFile fs (d ++ [basename f]) ((contentAt fs f).getD "")) d p hp2
        simpa [copy_fonts, h1f, h2] using hrest
      · have h2f : (isFileAt fs f && isDirAt fs d) = false := by simpa using h2
        simpa [copy_fonts, h1f, h2f] using ih fs d p hp

theorem copy_fonts_keeps_file (l : List (List String)) :
    ∀ (fs : Node) (d p : List String) (c0 : String),
      resolve fs p = some (Node.file c0) →
      resolve (copy_fonts fs l d).2 p = some (Node.file c0) := by
  induction l with
  | nil => intro fs d p c0 hp; simpa [copy_fonts] using hp
  | cons f rest ih =>
    intro fs d p c0 hp
    by_cases h1 : existsAt fs (d ++ [basename f]) = true
    · simpa [copy_fonts, h1] using ih fs d p c0 hp
    · have h1f : existsAt fs (d ++ [basename f]) = false := by simpa using h1
      by_cases h2 : (isFileAt fs f && isDirAt fs d) = true
      · have hp2 := insertFile_keeps_file (d ++ [basename f]) fs
          ((contentAt fs f).getD "") p c0 h1f hp
        have hrest := ih (insertFile fs (d ++ [basename f]) ((contentAt fs f).getD ""))
          d p c0 hp2
        simpa [copy_fonts, h1f, h2] using hrest
      · have h2f : (isFileAt fs f && isDirAt fs d) = false := by simpa using h2
        simpa [copy_fonts, h1f, h2f] using ih fs d p c0 hp

theorem copy_fonts_dir_mono (l : List (List String)) :
    ∀ (fs : Node) (d p : List String), isDirAt fs p = true →
      isDirAt (copy_fonts fs l d).2 p = true := by
  induction l with
  | nil => intro fs d p hp; simpa [copy_fonts] using hp
  | cons f rest ih =>
    intro fs d p hp
    by_cases h1 : existsAt fs (d ++ [basename f]) = true
    · simpa [copy_fonts, h1] using ih fs d p hp
    · have h1f : existsAt fs (d ++ [basename f]) = false := by simpa using h1
      by_cases h2 : (isFileAt fs f && isDirAt fs d) = true
      · obtain ⟨a0, es0, hres⟩ := (isDirAt_resolve fs p).mp hp
        obtain ⟨a1, es1, hres1⟩ := insertFile_keeps_dir (d ++ [basename f]) fs
          ((contentAt fs f).getD "") p a0 es0 h1f hres
        have hp2 : isDirAt (insertFile fs (d ++ [basename f]) ((contentAt fs f).getD "")) p
            = true := (isDirAt_resolve _ p).mpr ⟨a1, es1, hres1⟩
        have hrest := ih (insertFile fs (d ++ [basename f]) ((contentAt fs f).getD "")) d p hp2
        simpa [copy_fonts, h1f, h2] using hrest
      · have h2f : (isFileAt fs f && isDirAt fs d) = false := by simpa using h2
        simpa [copy_fonts, h1f, h2f] using ih fs d p hp

theorem copy_fonts_dir_reflect (l : List (List String)) :
    ∀ (fs : Node) (d p : List String),
      isDirAt (copy_fonts fs l d).2 p = true → isDirAt fs p = true := by
  induction l with
  | nil => intro fs d p hp; simpa [copy_fonts] using hp
  | cons f rest ih =>
    intro fs d p hp
    by_cases h1 : existsAt fs (d ++ [basename f]) = true
    · exact ih fs d p (by simpa [copy_fonts, h1] using hp)
    · have h1f : existsAt fs (d ++ [basename f]) = false := by simpa using h1
      by_cases h2 : (isFileAt fs f && isDirAt fs d) = true
      · have hp2 := ih (insertFile fs (d ++ [basename f]) ((contentAt fs f).getD "")) d p
          (by simpa [copy_fonts, h1f, h2] using hp)
        exact insertFile_dir_reflect (d ++ [basename f]) fs ((contentAt fs f).getD "") p hp2
      · have h2f : (isFileAt fs f && isDirAt fs d) = false := by simpa using h2
        exact ih fs d p (by simpa [copy_fonts, h1f, h2f] using hp)

theorem copy_fonts_file_new (l : List (List String)) :
    ∀ (fs : Node) (d p : List String),
      isFileAt (copy_fonts fs l d).2 p = true →
      isFileAt fs p = true ∨ ∃ s, p = d ++ [s] := by
  induction l with
  | nil => intro fs d p hp; exact Or.inl (by simpa [copy_fonts] using hp)
  | cons f rest ih =>
    intro fs d p hp
    by_cases h1 : existsAt fs (d ++ [basename f]) = true
    · exact ih fs d p (by simpa [copy_fonts, h1] using hp)
    · have h1f : existsAt fs (d ++ [basename f]) = false := by simpa using h1
      by_cases h2 : (isFileAt fs f && isDirAt fs d) = true
      · have hp2 := ih (insertFile fs (d ++ [basename f]) ((contentAt fs f).getD "")) d p
          (by simpa [copy_fonts, h1f, h2] using hp)
        rcases hp2 with hp3 | hp3
        · rcases insertFile_file_new (d ++ [basename f]) fs ((contentAt fs f).getD "") p hp3
            with hp4 | hp4
          · exact Or.inl hp4
          · exact Or.inr ⟨basename f, hp4⟩
        · exact Or.inr hp3
      · have h2f : (isFileAt fs f && isDirAt fs d) = false := by simpa using h2
        exact ih fs d p (by simpa [copy_fonts, h1f, h2f] using hp)

theorem copy_fonts_records (l : List (List String)) :
    ∀ (fs : Node) (d : List String) (r : CopyRecord), r ∈ (copy_fonts fs l d).1 →
      r.destination = d ++ [basename r.source] ∧ r.originalName = basename r.source ∧
      r.source ∈ l := by
  induction l with
  | nil => intro fs d r hr; simp [copy_fonts] at hr
  | cons f rest ih =>
    intro fs d r hr
    by_cases h1 : existsAt fs (d ++ [basename f]) = true
    · have hr2 : r ∈ (copy_fonts fs rest d).1 := by simpa [copy_fonts, h1] using hr
      obtain ⟨ha, hb, hc⟩ := ih fs d r hr2
      exact ⟨ha, hb, List.mem_cons_of_mem f hc⟩
    · have h1f : existsAt fs (d ++ [basename f]) = false := by simpa using h1
      by_cases h2 : (isFileAt fs f && isDirAt fs d) = true
      · have hr2 : r = CopyRecord.mk f (d ++ [basename f]) (basename f) ∨
            r ∈ (copy_fonts (insertFile fs (d ++ [basename f])
              ((contentAt fs f).getD "")) rest d).1 := by
          have := hr
          simp [copy_fonts, h1f, h2] at this
          rcases this with h | h
          · exact Or.inl (by cases r; simp_all)
          · exact Or.inr h
        rcases hr2 with h | h
        · subst h
          exact ⟨rfl, rfl, List.mem_cons_self f rest⟩
        · obtain ⟨ha, hb, hc⟩ := ih _ d r h
          exact ⟨ha, hb, List.mem_cons_of_mem f hc⟩
      · have h2f : (isFileAt fs f && isDirAt fs d) = false := by simpa using h2
        have hr2 : r ∈ (copy_fonts fs rest d).1 := by simpa [copy_fonts, h1f, h2f] using hr
        obtain ⟨ha, hb, hc⟩ := ih fs d r hr2
        exact ⟨ha, hb, List.mem_cons_of_mem f hc⟩

theorem copy_fonts_records_fresh (l : List (List String)) :
    ∀ (fs : Node) (d : List String) (r : CopyRecord), r ∈ (copy_fonts fs l d).1 →
      existsAt fs (d ++ [r.originalName]) = false := by
  induction l with
  | nil => intro fs d r hr; simp [copy_fonts] at hr
  | cons f rest ih =>
    intro fs d r hr
    by_cases h1 : existsAt fs (d ++ [basename f]) = true
    · exact ih fs d r (by simpa [copy_fonts, h1] using hr)
    · have h1f : existsAt fs (d ++ [basename f]) = false := by simpa using h1
      by_cases h2 : (isFileAt fs f && isDirAt fs d) = true
      · have hr2 : r = CopyRecord.mk f (d ++ [basename f]) (basename f) ∨
            r ∈ (copy_fonts (insertFile fs (d ++ [basename f])
              ((contentAt fs f).getD "")) rest d).1 := by
          have := hr
          simp [copy_fonts, h1f, h2] at this
          rcases this with h | h
          · exact Or.inl (by cases r; simp_all)
          · exact Or.inr h
        rcases hr2 with h | h
        · subst h; exact h1f
        · have h3 := ih _ d r h
          by_contra hcon
          have hex : existsAt fs (d ++ [r.originalName]) = true := by
            cases hx : existsAt fs (d ++ [r.originalName]) with
            | true => rfl
            | false => exact absurd hx hcon
          have := insertFile_exists_mono (d ++ [basename f]) fs
            ((contentAt fs f).getD "") (d ++ [r.originalName]) h1f hex
          rw [this] at h3
          simp at h3
      · have h2f : (isFileAt fs f && isDirAt fs d) = false := by simpa using h2
        exact ih fs d r (by simpa [copy_fonts, h1f, h2f] using hr)

theorem copy_fonts_names_nodup (l : List (List String)) :
    ∀ (fs : Node) (d : List String),
      ((copy_fonts fs l d).1.map CopyRecord.originalName).Nodup := by
  induction l with
  | nil => intro fs d; simp [copy_fonts]
  | cons f rest ih =>
    intro fs d
    by_cases h1 : existsAt fs (d ++ [basename f]) = true
    · simpa [copy_fonts, h1] using ih fs d
    · have h1f : existsAt fs (d ++ [basename f]) = false := by simpa using h1
      by_cases h2 : (isFileAt fs f && isDirAt fs d) = true
      · have hd : isDirAt fs d = true := by
          rcases Bool.and_eq_true_iff.mp h2 with ⟨_, hb⟩
          exact hb
        have hself := insertFile_concat_self d fs (basename f) ((contentAt fs f).getD "") hd
        have hex1 : existsAt (insertFile fs (d ++ [basename f]) ((contentAt fs f).getD ""))
            (d ++ [basename f]) = true := by simp [existsAt, hself]
        have hfresh := copy_fonts_records_fresh rest
          (insertFile fs (d ++ [basename f]) ((contentAt fs f).getD "")) d
        have hnotin : basename f ∉ ((copy_fonts (insertFile fs (d ++ [basename f])
            ((contentAt fs f).getD "")) rest d).1.map CopyRecord.originalName) := by
          intro hmem
          obtain ⟨r, hrmem, hrn⟩ := List.mem_map.mp hmem
          have := hfresh r hrmem
          rw [hrn] at this
          rw [hex1] at this
          simp at this
        have htail := ih (insertFile fs (d ++ [basename f]) ((contentAt fs f).getD "")) d
        simp only [copy_fonts, h1f, h2]
        simp [List.nodup_cons, hnotin, htail]
      · have h2f : (isFileAt fs f && isDirAt fs d) = false := by simpa using h2
        simpa [copy_fonts, h1f, h2f] using ih fs d

theorem copy_fonts_covers (l : List (List String)) :
    ∀ (fs : Node) (d : List String) (f : List String), f ∈ l →
      existsAt (copy_fonts fs l d).2 (d ++ [basename f]) = true ∨
      (isFileAt (copy_fonts fs l d).2 f && isDirAt (copy_fonts fs l d).2 d) = false := by
  induction l with
  | nil => intro fs d f hf; simp at hf
  | cons g rest ih =>
    intro fs d f hf
    by_cases h1 : existsAt fs (d ++ [basename g]) = true
    · rcases List.mem_cons.mp hf with hfg | hfr
      · subst hfg
        exact Or.inl (by simpa [copy_fonts, h1] using copy_fonts_exists_mono rest fs d _ h1)
      · have := ih fs d f hfr
        simpa [copy_fonts, h1] using this
    · have h1f : existsAt fs (d ++ [basename g]) = false := by simpa using h1
      by_cases h2 : (isFileAt fs g && isDirAt fs d) = true
      · have hd : isDirAt fs d = true := (Bool.and_eq_true_iff.mp h2).2
        have hself := insertFile_concat_self d fs (basename g) ((contentAt fs g).getD "") hd
        have hex1 : existsAt (insertFile fs (d ++ [basename g]) ((contentAt fs g).getD ""))
            (d ++ [basename g]) = true := by simp [existsAt, hself]
        rcases List.mem_cons.mp hf with hfg | hfr
        · subst hfg
          exact Or.inl (by
            simpa [copy_fonts, h1f, h2] using
              copy_fonts_exists_mono rest _ d _ hex1)
        · have := ih (insertFile fs (d ++ [basename g]) ((contentAt fs g).getD "")) d f hfr
          simpa [copy_fonts, h1f, h2] using this
      · have h2f : (isFileAt fs g && isDirAt fs d) = false := by simpa using h2
        rcases List.mem_cons.mp hf with hfg | hfr
        · subst hfg
          rcases Bool.and_eq_false_iff.mp h2f with hb | hb
          · by_cases hff : isFileAt (copy_fonts fs rest d).2 f = true
            · rcases copy_fonts_file_new rest fs d f hff with hc | hc
              · rw [hb] at hc; simp at hc
              · obtain ⟨s, hs⟩ := hc
                have hbn : basename f = s := by rw [hs]; exact basename_concat d s
                refine Or.inl ?_
                have : existsAt (copy_fonts fs rest d).2 f = true :=
                  existsAt_of_isFileAt _ f hff
                rw [hbn, ← hs]
                simpa [copy_fonts, h1f, h2f] using this
            · refine Or.inr ?_
              have hfalse : isFileAt (copy_fonts fs rest d).2 f = false := by
                simpa using hff
              simp [copy_fonts, h1f, h2f, hfalse]
          · refine Or.inr ?_
            have hdd : isDirAt (copy_fonts fs rest d).2 d = false := by
              cases hx : isDirAt (copy_fonts fs rest d).2 d with
              | false => rfl
              | true =>
                have := copy_fonts_dir_reflect rest fs d d hx
                rw [hb] at this
                simp at this
            simp [copy_fonts, h1f, h2f, hdd]
        · have := ih fs d f hfr
          simpa [copy_fonts, h1f, h2f] using this

theorem copy_fonts_noop (l : List (List String)) :
    ∀ (fs : Node) (d : List String),
      (∀ f ∈ l, existsAt fs (d ++ [basename f]) = true ∨
        (isFileAt fs f && isDirAt fs d) = false) →
      copy_fonts fs l d = ([], fs) := by
  induction l with
  | nil => intro fs d _; simp [copy_fonts]
  | cons f rest ih =>
    intro fs d hall
    have hrest := ih fs d fun g hg => hall g (List.mem_cons_of_mem f hg)
    rcases hall f (List.mem_cons_self f rest) with h | h
    · simp [copy_fonts, h, hrest]
    · by_cases h1 : existsAt fs (d ++ [basename f]) = true
      · simp [copy_fonts, h1, hrest]
      · have h1f : existsAt fs (d ++ [basename f]) = false := by simpa using h1
        simp [copy_fonts, h1f, h, hrest]

theorem copy_fonts_second_run (l : List (List String)) (fs : Node) (d : List String) :
    copy_fonts (copy_fonts fs l d).2 l d = ([], (copy_fonts fs l d).2) :=
  copy_fonts_noop l (copy_fonts fs l d).2 d fun f hf => copy_fonts_covers l fs d f hf

mutual
theorem scanDir_ub (path : List String) (node : Node) (depth maxd : Nat) :
    ∀ p ∈ scanDir path node depth maxd, p.length + depth ≤ path.length + maxd + 1 := by
  cases node with
  | file c => intro p hp; simp [scanDir] at hp
  | dir a es =>
    intro p hp
    by_cases h1 : maxd < depth
    · simp [scanDir, h1] at hp
    · cases a with
      | false => simp [scanDir, h1] at hp
      | true =>
        have hp2 : p ∈ scanEntries path es depth maxd := by
          simpa [scanDir, h1] using hp
        exact scanEntries_ub path es depth maxd (Nat.le_of_not_lt h1) p hp2

theorem scanEntries_ub (path : List String) (es : List (String × Node)) (depth maxd : Nat)
    (hle : depth ≤ maxd) :
    ∀ p ∈ scanEntries path es depth maxd, p.length + depth ≤ path.length + maxd + 1 := by
  cases es with
  | nil => intro p hp; simp [scanEntries] at hp
  | cons hd rest =>
    obtain ⟨n, child⟩ := hd
    cases child with
    | file c =>
      intro p hp
      simp only [scanEntries] at hp
      rcases List.mem_append.mp hp with h | h
      · cases hf : is_font_file n with
        | false => rw [hf] at h; simp at h
        | true =>
          rw [hf] at h
          simp at h
          subst h
          simp only [List.length_append, List.length_cons, List.length_nil]
          omega
      · exact scanEntries_ub path rest depth maxd hle p h
    | dir a2 es2 =>
      intro p hp
      simp only [scanEntries] at hp
      rcases List.mem_append.mp hp with h | h
      · have h2 := scanDir_ub (path ++ [n]) (Node.dir a2 es2) (depth + 1) maxd p h
        simp only [List.length_append, List.length_cons, List.length_nil] at h2 ⊢
        omega
      · exact scanEntries_ub path rest depth maxd hle p h
end

mutual
theorem scanDir_lb (path : List String) (node : Node) (depth maxd : Nat) :
    ∀ p ∈ scanDir path node depth maxd, path.length < p.length := by
  cases node with
  | file c => intro p hp; simp [scanDir] at hp
  | dir a es =>
    intro p hp
    by_cases h1 : maxd < depth
    · simp [scanDir, h1] at hp
    · cases a with
      | false => simp [scanDir, h1] at hp
      | true =>
        have hp2 : p ∈ scanEntries path es depth maxd := by
          simpa [scanDir, h1] using hp
        exact scanEntries_lb path es depth maxd p hp2

theorem scanEntries_lb (path : List String) (es : List (String × Node)) (depth maxd : Nat) :
    ∀ p ∈ scanEntries path es depth maxd, path.length < p.length := by
  cases es with
  | nil => intro p hp; simp [scanEntries] at hp
  | cons hd rest =>
    obtain ⟨n, child⟩ := hd
    cases child with
    | file c =>
      intro p hp
      simp only [scanEntries] at hp
      rcases List.mem_append.mp hp with h | h
      · cases hf : is_font_file n with
        | false => rw [hf] at h; simp at h
        | true =>
          rw [hf] at h
          simp at h
          subst h
          simp
      · exact scanEntries_lb path rest depth maxd p h
    | dir a2 es2 =>
      intro p hp
      simp only [scanEntries] at hp
      rcases List.mem_append.mp hp with h | h
      · have h2 := scanDir_lb (path ++ [n]) (Node.dir a2 es2) (depth + 1) maxd p h
        simp only [List.length_append, List.length_cons, List.length_nil] at h2
        omega
      · exact scanEntries_lb path rest depth maxd p h
end

mutual
theorem scanDir_nofont (path : List String) (node : Node) (depth maxd : Nat) :
    nodeHasFont node = false → scanDir path node depth maxd = [] := by
  cases node with
  | file c => intro _; simp [scanDir]
  | dir a es =>
    intro h
    have h2 : entriesHaveFont es = false := by simpa [nodeHasFont] using h
    by_cases h1 : maxd < depth
    · simp [scanDir, h1]
    · cases a with
      | false => simp [scanDir, h1]
      | true =>
        simp only [scanDir, h1, if_false]
        simpa using scanEntries_nofont path es depth maxd h2

theorem scanEntries_nofont (path : List String) (es : List (String × Node))
    (depth maxd : Nat) :
    entriesHaveFont es = false → scanEntries path es depth maxd = [] := by
  cases es with
  | nil => intro _; simp [scanEntries]
  | cons hd rest =>
    obtain ⟨n, child⟩ := hd
    cases child with
    | file c =>
      intro h
      simp only [entriesHaveFont, Bool.or_eq_false_iff] at h
      obtain ⟨hf, hrest⟩ := h
      simp only [scanEntries, hf, if_false]
      simpa using scanEntries_nofont path rest depth maxd hrest
    | dir a2 es2 =>
      intro h
      simp only [entriesHaveFont, Bool.or_eq_false_iff] at h
      obtain ⟨hc, hrest⟩ := h
      simp only [scanEntries]
      rw [scanDir_nofont (path ++ [n]) (Node.dir a2 es2) (depth + 1) maxd hc]
      simpa using scanEntries_nofont path rest depth maxd hrest
end

theorem topScan_ub (es : List (String × Node)) :
    ∀ (path : List String) (maxd : Nat) (p : List String),
      p ∈ topScanEntries path es maxd → p.length ≤ path.length + maxd + 2 := by
  induction es with
  | nil => intro path maxd p hp; simp [topScanEntries] at hp
  | cons hd rest ih =>
    intro path maxd p hp
    obtain ⟨n, child⟩ := hd
    by_cases hn : n = "FontUploads"
    · exact ih path maxd p (by simpa [topScanEntries, hn] using hp)
    · cases child with
      | file c => exact ih path maxd p (by simpa [topScanEntries, hn] using hp)
      | dir a2 es2 =>
        have hp2 : p ∈ scanDir (path ++ [n]) (Node.dir a2 es2) 0 maxd ++
            topScanEntries path rest maxd := by simpa [topScanEntries, hn] using hp
        rcases List.mem_append.mp hp2 with h | h
        · have h2 := scanDir_ub (path ++ [n]) (Node.dir a2 es2) 0 maxd p h
          simp only [List.length_append, List.length_cons, List.length_nil] at h2
          omega
        · exact ih path maxd p h

theorem topScan_lb (es : List (String × Node)) :
    ∀ (path : List String) (maxd : Nat) (p : List String),
      p ∈ topScanEntries path es maxd → path.length + 2 ≤ p.length := by
  induction es with
  | nil => intro path maxd p hp; simp [topScanEntries] at hp
  | cons hd rest ih =>
    intro path maxd p hp
    obtain ⟨n, child⟩ := hd
    by_cases hn : n = "FontUploads"
    · exact ih path maxd p (by simpa [topScanEntries, hn] using hp)
    · cases child with
      | file c => exact ih path maxd p (by simpa [topScanEntries, hn] using hp)
      | dir a2 es2 =>
        have hp2 : p ∈ scanDir (path ++ [n]) (Node.dir a2 es2) 0 maxd ++
            topScanEntries path rest maxd := by simpa [topScanEntries, hn] using hp
        rcases List.mem_append.mp hp2 with h | h
        · have h2 := scanDir_lb (path ++ [n]) (Node.dir a2 es2) 0 maxd p h
          simp only [List.length_append, List.length_cons, List.length_nil] at h2
          omega
        · exact ih path maxd p h

theorem lookupName_mem (es : List (String × Node)) (n : String) (x : Node)
    (h : lookupName es n = some x) : (n, x) ∈ es := by
  induction es with
  | nil => simp [lookupName] at h
  | cons hd rest ih =>
    obtain ⟨m, y⟩ := hd
    by_cases hm : m = n
    · subst hm
      simp [lookupName] at h
      subst h
      exact List.mem_cons_self _ _
    · simp [lookupName, hm] at h
      exact List.mem_cons_of_mem _ (ih h)

theorem entriesHaveFont_false_file (es : List (String × Node)) (n : String) (c : String)
    (hno : entriesHaveFont es = false) (hm : (n, Node.file c) ∈ es) :
    is_font_file n = false := by
  induction es with
  | nil => simp at hm
  | cons hd rest ih =>
    obtain ⟨m, y⟩ := hd
    rcases List.mem_cons.mp hm with h | h
    · obtain ⟨h1, h2⟩ := Prod.mk.injEq .. ▸ h
      subst h1 h2
      simpa [entriesHaveFont, Bool.or_eq_false_iff] using And.left
        (Bool.or_eq_false_iff.mp (by simpa [entriesHaveFont] using hno))
    · cases y with
      | file c2 =>
        simp only [entriesHaveFont, Bool.or_eq_false_iff] at hno
        exact ih hno.2 h
      | dir a2 es2 =>
        simp only [entriesHaveFont, Bool.or_eq_false_iff] at hno
        exact ih hno.2 h

theorem entriesHaveFont_false_dir (es : List (String × Node)) (n : String) (a2 : Bool)
    (es2 : List (String × Node)) (hno : entriesHaveFont es = false)
    (hm : (n, Node.dir a2 es2) ∈ es) : entriesHaveFont es2 = false := by
  induction es with
  | nil => simp at hm
  | cons hd rest ih =>
    obtain ⟨m, y⟩ := hd
    rcases List.mem_cons.mp hm with h | h
    · obtain ⟨h1, h2⟩ := Prod.mk.injEq .. ▸ h
      subst h1
      rw [← h2] at hno
      simp only [entriesHaveFont, nodeHasFont, Bool.or_eq_false_iff] at hno
      exact hno.1
    · cases y with
      | file c2 =>
        simp only [entriesHaveFont, Bool.or_eq_false_iff] at hno
        exact ih hno.2 h
      | dir a3 es3 =>
        simp only [entriesHaveFont, Bool.or_eq_false_iff] at hno
        exact ih hno.2 h

theorem topScan_nofont (es0 : List (String × Node)) :
    ∀ (es : List (String × Node)) (path : List String) (maxd : Nat),
      entriesHaveFont es0 = false → (∀ e ∈ es, e ∈ es0) →
      topScanEntries path es maxd = [] := by
  intro es
  induction es with
  | nil => intro path maxd _ _; simp [topScanEntries]
  | cons hd rest ih =>
    intro path maxd hno hsub
    obtain ⟨n, child⟩ := hd
    have hsubrest : ∀ e ∈ rest, e ∈ es0 := fun e he => hsub e (List.mem_cons_of_mem _ he)
    by_cases hn : n = "FontUploads"
    · simpa [topScanEntries, hn] using ih path maxd hno hsubrest
    · cases child with
      | file c => simpa [topScanEntries, hn] using ih path maxd hno hsubrest
      | dir a2 es2 =>
        have hmem : (n, Node.dir a2 es2) ∈ es0 := hsub _ (List.mem_cons_self _ _)
        have hno2 : entriesHaveFont es2 = false :=
          entriesHaveFont_false_dir es0 n a2 es2 hno hmem
        have hscan := scanDir_nofont (path ++ [n]) (Node.dir a2 es2) 0 maxd
          (by simpa [nodeHasFont] using hno2)
        simp only [topScanEntries, hn, if_false]
        rw [hscan]
        simpa using ih path maxd hno hsubrest

theorem dirAccessible_resolve (fs : Node) (p : List String) :
    dirAccessible fs p = true ↔ ∃ es, resolve fs p = some (Node.dir true es) := by
  unfold dirAccessible
  cases h : resolve fs p with
  | none => simp
  | some x =>
    cases x with
    | file c => simp
    | dir a es => cases a <;> simp

theorem scan_destructure (fs : Node) (d : List String) (maxd : Nat) (l : List (List String))
    (h : scan_for_fonts fs d maxd = Except.ok l) :
    ∃ part1 es, listdirE fs d = Except.ok es ∧ l = part1 ++ topScanEntries d es maxd ∧
      ∀ p ∈ part1, ∃ n c es2, listdirE fs (d ++ ["FontUploads"]) = Except.ok es2 ∧
        (n, Node.file c) ∈ es2 ∧ is_font_file n = true ∧ p = d ++ ["FontUploads", n] := by
  by_cases hfu : isDirAt fs (d ++ ["FontUploads"]) = true
  · cases hld2 : listdirE fs (d ++ ["FontUploads"]) with
    | error e => simp [scan_for_fonts, hfu, hld2] at h
    | ok es2 =>
      cases hld : listdirE fs d with
      | error e => simp [scan_for_fonts, hfu, hld2, hld] at h
      | ok es =>
        simp only [scan_for_fonts, hfu, if_true, hld2, hld, Except.ok.injEq] at h
        refine ⟨_, es, rfl, h.symm, ?_⟩
        intro p hp
        obtain ⟨it, hit, hsome⟩ := List.mem_filterMap.mp hp
        obtain ⟨n, node⟩ := it
        cases node with
        | file c =>
          cases hf : is_font_file n with
          | true =>
            simp [hf] at hsome
            exact ⟨n, c, es2, rfl, hit, hf, hsome.symm⟩
          | false => simp [hf] at hsome
        | dir a2 b2 => simp at hsome
  · have hfuf : isDirAt fs (d ++ ["FontUploads"]) = false := by simpa using hfu
    cases hld : listdirE fs d with
    | error e => simp [scan_for_fonts, hfuf, hld] at h
    | ok es =>
      simp only [scan_for_fonts, hfuf, Bool.false_eq_true, if_false, hld,
        Except.ok.injEq] at h
      refine ⟨[], es, rfl, ?_, by simp⟩
      simpa using h.symm

theorem listdirE_elems (fs : Node) (p : List String) (es : List (String × Node))
    (h : listdirE fs p = Except.ok es) : resolve fs p = some (Node.dir true es) := by
  unfold listdirE at h
  cases hr : resolve fs p with
  | none => rw [hr] at h; simp at h
  | some x =>
    rw [hr] at h
    cases x with
    | file c => simp at h
    | dir a es2 =>
      cases a with
      | false => simp at h
      | true => simp at h; rw [h]

theorem scan_ub (fs : Node) (d : List String) (maxd : Nat) (l : List (List String))
    (h : scan_for_fonts fs d maxd = Except.ok l) :
    ∀ p ∈ l, p.length ≤ d.length + maxd + 2 := by
  obtain ⟨part1, es, _, hl, hpart⟩ := scan_destructure fs d maxd l h
  intro p hp
  rw [hl] at hp
  rcases List.mem_append.mp hp with h1 | h1
  · obtain ⟨n, c, es2, _, _, _, hn⟩ := hpart p h1
    subst hn
    simp only [List.length_append, List.length_cons, List.length_nil]
    omega
  · have := topScan_ub es d maxd p h1
    omega

theorem scan_lb (fs : Node) (d : List String) (maxd : Nat) (l : List (List String))
    (h : scan_for_fonts fs d maxd = Except.ok l) :
    ∀ p ∈ l, d.length + 2 ≤ p.length := by
  obtain ⟨part1, es, _, hl, hpart⟩ := scan_destructure fs d maxd l h
  intro p hp
  rw [hl] at hp
  rcases List.mem_append.mp hp with h1 | h1
  · obtain ⟨n, c, es2, _, _, _, hn⟩ := hpart p h1
    subst hn
    simp only [List.length_append, List.length_cons, List.length_nil]
    omega
  · exact topScan_lb es d maxd p h1

theorem scan_ok (fs : Node) (d : List String) (maxd : Nat)
    (hacc : dirAccessible fs d = true)
    (hfua : isDirAt fs (d ++ ["FontUploads"]) = true →
      dirAccessible fs (d ++ ["FontUploads"]) = true) :
    ∃ l, scan_for_fonts fs d maxd = Except.ok l := by
  obtain ⟨es, hres⟩ := (dirAccessible_resolve fs d).mp hacc
  have hld : listdirE fs d = Except.ok es := by simp [listdirE, hres]
  by_cases hfu : isDirAt fs (d ++ ["FontUploads"]) = true
  · obtain ⟨es2, hres2⟩ := (dirAccessible_resolve fs (d ++ ["FontUploads"])).mp (hfua hfu)
    have hld2 : listdirE fs (d ++ ["FontUploads"]) = Except.ok es2 := by
      simp [listdirE, hres2]
    cases hsc : scan_for_fonts fs d maxd with
    | ok l => exact ⟨l, rfl⟩
    | error e => simp [scan_for_fonts, hfu, hld2, hld] at hsc
  · have hfuf : isDirAt fs (d ++ ["FontUploads"]) = false := by simpa using hfu
    cases hsc : scan_for_fonts fs d maxd with
    | ok l => exact ⟨l, rfl⟩
    | error e => simp [scan_for_fonts, hfuf, hld] at hsc

theorem scan_nofont (fs : Node) (d : List String) (maxd : Nat) (a : Bool)
    (es : List (String × Node)) (l : List (List String))
    (hres : resolve fs d = some (Node.dir a es))
    (hno : entriesHaveFont es = false)
    (h : scan_for_fonts fs d maxd = Except.ok l) : l = [] := by
  obtain ⟨part1, esb, hld, hl, hpart⟩ := scan_destructure fs d maxd l h
  have hresb := listdirE_elems fs d esb hld
  have hesb : es = esb := by
    rw [hres] at hresb
    have h2 : Node.dir a es = Node.dir true esb := by simpa using hresb
    injection h2 with h3 h4
  have htop : topScanEntries d esb maxd = [] := by
    rw [← hesb]
    exact topScan_nofont es es d maxd hno fun e he => he
  have hp1 : part1 = [] := by
    rw [List.eq_nil_iff_forall_not_mem]
    intro p hp
    obtain ⟨n, c, es2, hld2, hmem, hf, _⟩ := hpart p hp
    have hres2 := listdirE_elems fs (d ++ ["FontUploads"]) es2 hld2
    have hres2b : (match lookupName es "FontUploads" with
        | some child => some child
        | none => none) = some (Node.dir true es2) := by
      rw [resolve_append, hres] at hres2
      simpa [resolve] using hres2
    have hlook : lookupName es "FontUploads" = some (Node.dir true es2) := by
      revert hres2b
      cases lookupName es "FontUploads" with
      | none => intro hres2b; simp at hres2b
      | some child => intro hres2b; simpa using hres2b
    have hno2 : entriesHaveFont es2 = false :=
      entriesHaveFont_false_dir es "FontUploads" true es2 hno (lookupName_mem es _ _ hlook)
    have hff := entriesHaveFont_false_file es2 n c hno2 hmem
    simp [hff] at hf
  rw [hl, hp1, htop]
  rfl

theorem process_eq_notdir (fs : Node) (d : List String) (w : Bool)
    (hd : isDirAt fs d = false) :
    process_upload_directory fs d w = Except.ok
      ({ success := false, error := some "Directory not found", fontsFound := none,
         fontsCopied := none, directory := d, uploadRoot := none,
         fontsDirectory := none, copiedFonts := none }, fs, none) := by
  simp [process_upload_directory, hd]

theorem process_eq_nofound (fs : Node) (d : List String) (w : Bool)
    (hd : isDirAt fs d = true) (hscan : scan_for_fonts fs d 3 = Except.ok [])
    (fs1 : Node) (hmk : makedirs fs (resolveUploadRoot d ++ ["Fonts"]) = some fs1) :
    process_upload_directory fs d w = Except.ok
      ({ success := true, error := none, fontsFound := some 0, fontsCopied := some 0,
         directory := d, uploadRoot := some (resolveUploadRoot d),
         fontsDirectory := some (resolveUploadRoot d ++ ["Fonts"]), copiedFonts := none },
       fs1, none) := by
  simp [process_upload_directory, hd, hscan, hmk]

theorem process_eq_found (fs : Node) (d : List String) (w : Bool) (l : List (List String))
    (hd : isDirAt fs d = true) (hscan : scan_for_fonts fs d 3 = Except.ok l)
    (hne : l ≠ []) (fs1 : Node)
    (hmk : makedirs fs (resolveUploadRoot d ++ ["Fonts"]) = some fs1) :
    process_upload_directory fs d w = Except.ok
      ({ success := true, error := none, fontsFound := some l.length,
         fontsCopied := some (copy_fonts fs1 l (resolveUploadRoot d ++ ["Fonts"])).1.length,
         directory := d, uploadRoot := some (resolveUploadRoot d),
         fontsDirectory := some (resolveUploadRoot d ++ ["Fonts"]),
         copiedFonts := some (copy_fonts fs1 l (resolveUploadRoot d ++ ["Fonts"])).1 },
       (if w then insertFile (copy_fonts fs1 l (resolveUploadRoot d ++ ["Fonts"])).2
          (d ++ ["font_processing_summary.json"]) "summary"
        else (copy_fonts fs1 l (resolveUploadRoot d ++ ["Fonts"])).2),
       (if w then some
         { success := true, error := none, fontsFound := some l.length,
           fontsCopied := some (copy_fonts fs1 l (resolveUploadRoot d ++ ["Fonts"])).1.length,
           directory := d, uploadRoot := some (resolveUploadRoot d),
           fontsDirectory := some (resolveUploadRoot d ++ ["Fonts"]),
           copiedFonts := some (copy_fonts fs1 l (resolveUploadRoot d ++ ["Fonts"])).1 }
        else none)) := by
  have hie : l.isEmpty = false := by simpa [List.isEmpty_iff] using hne
  simp [process_upload_directory, hd, hscan, hie, hmk]

theorem makedirs_for_process (fs : Node) (d : List String)
    (hd : isDirAt fs d = true)
    (h3 : isFileAt fs (resolveUploadRoot d ++ ["Fonts"]) = false) :
    ∃ fs1, makedirs fs (resolveUploadRoot d ++ ["Fonts"]) = some fs1 ∧
      isDirAt fs1 (resolveUploadRoot d ++ ["Fonts"]) = true := by
  obtain ⟨t, ht⟩ := resolveUploadRoot_sub d
  have hpref : isDirAt fs (resolveUploadRoot d) = true := by
    rw [← ht] at hd
    exact isDirAt_of_append fs _ t hd
  exact makedirs_concat_some (resolveUploadRoot d) fs "Fonts" hpref h3

/-- Claim C4: the Consolidator copies a font file only when no file with the
same base name already exists in the destination directory (every emitted
CopyRecord names a destination filename that did not exist beforehand), it
never overwrites (every file existing before the run still resolves to the
same content afterwards), within a run each destination name is copied at
most once, and running the consolidation a second time over the same source
set from the resulting state performs no copy at all: the second run returns
zero copy records and leaves the filesystem unchanged. -/
theorem C4_consolidator_idempotent (fs : Node) (fonts : List (List String))
    (destDir : List String) :
    (∀ r ∈ (copy_fonts fs fonts destDir).1,
      existsAt fs (destDir ++ [r.originalName]) = false) ∧
    (∀ p c0, resolve fs p = some (Node.file c0) →
      resolve (copy_fonts fs fonts destDir).2 p = some (Node.file c0)) ∧
    ((copy_fonts fs fonts destDir).1.map CopyRecord.originalName).Nodup ∧
    copy_fonts (copy_fonts fs fonts destDir).2 fonts destDir =
      ([], (copy_fonts fs fonts destDir).2) :=
  ⟨copy_fonts_records_fresh fonts fs destDir,
   fun p c0 h => copy_fonts_keeps_file fonts fs destDir p c0 h,
   copy_fonts_names_nodup fonts fs destDir,
   copy_fonts_second_run fonts fs destDir⟩

/-- Claim C4, witness: on a concrete one-font source set, the untouched
source file keeps its content across the run and the second run returns no
records and does not change the filesystem. -/
theorem C4_witness :
    resolve (copy_fonts fsC4 [["s", "x.ttf"]] ["Fonts"]).2 ["s", "x.ttf"] =
      some (Node.file "1") ∧
    copy_fonts (copy_fonts fsC4 [["s", "x.ttf"]] ["Fonts"]).2 [["s", "x.ttf"]] ["Fonts"] =
      ([], (copy_fonts fsC4 [["s", "x.ttf"]] ["Fonts"]).2) :=
  ⟨(C4_consolidator_idempotent fsC4 [["s", "x.ttf"]] ["Fonts"]).2.1
     ["s", "x.ttf"] "1" rfl,
   (C4_consolidator_idempotent fsC4 [["s", "x.ttf"]] ["Fonts"]).2.2.2⟩

/-- Claim C5: every CopyRecord emitted by the Consolidator has destination
equal to the destination directory joined with the basename of its source,
and its originalName is that basename: the destination is flattened to the
filename only, and no directory nesting of the source survives. -/
theorem C5_destination_flattened (fs : Node) (fonts : List (List String))
    (destDir : List String) (r : CopyRecord) (hr : r ∈ (copy_fonts fs fonts destDir).1) :
    r.destination = destDir ++ [basename r.source] ∧
    r.originalName = basename r.source :=
  ⟨(copy_fonts_records fonts fs destDir r hr).1,
   (copy_fonts_records fonts fs destDir r hr).2.1⟩

/-- Claim C5, witness: the record produced for a concrete nested source has
the flattened destination. -/
theorem C5_witness :
    (CopyRecord.mk ["s", "n.ttf"] ["Fonts", "n.ttf"] "n.ttf").destination =
      ["Fonts"] ++ [basename ["s", "n.ttf"]] ∧
    (CopyRecord.mk ["s", "n.ttf"] ["Fonts", "n.ttf"] "n.ttf").originalName =
      basename ["s", "n.ttf"] :=
  C5_destination_flattened fsC5 [["s", "n.ttf"]] ["Fonts"]
    (CopyRecord.mk ["s", "n.ttf"] ["Fonts", "n.ttf"] "n.ttf") (by decide)

/-- Claim C7: on a root whose FontUploads child holds A.ttf and whose
assets/Fonts subdirectory holds B.otf, the Locator returns exactly those
two files, and the Consolidator, run as the orchestrator runs it on the
tree after Fonts creation, produces exactly two CopyRecords whose
destinations are Fonts/A.ttf and Fonts/B.otf. -/
theorem C7_fontuploads_and_nested :
    scan_for_fonts fs7 ["u"] 3 = Except.ok
      [["u", "FontUploads", "A.ttf"], ["u", "assets", "Fonts", "B.otf"]] ∧
    (copy_fonts fs7F
      [["u", "FontUploads", "A.ttf"], ["u", "assets", "Fonts", "B.otf"]] ["u", "Fonts"]).1 =
      [CopyRecord.mk ["u", "FontUploads", "A.ttf"] ["u", "Fonts", "A.ttf"] "A.ttf",
       CopyRecord.mk ["u", "assets", "Fonts", "B.otf"] ["u", "Fonts", "B.otf"] "B.otf"] := by
  constructor
  · simp +decide [scan_for_fonts, topScanEntries, scanDir, scanEntries, listdirE,
      resolve, lookupName, isDirAt, fs7]
  · rfl

/-- Claim C8: resolving the upload root from a path of the form
.../uploads/session123/raw/assets yields .../uploads/session123. -/
theorem C8_resolver_example :
    resolveUploadRoot ["home", "user", "uploads", "session123", "raw", "assets"] =
      ["home", "user", "uploads", "session123"] := by decide

/-- Claim C9, counterexample: with the default bound 3, the Locator
collects u/a/b/c/d/f.ttf, a file of a directory nested four levels below
the scanned root, so a directory nested deeper than the depth bound below
the root does have its files collected. -/
theorem C9_counterexample :
    scan_for_fonts fs9 ["u"] 3 =
      Except.ok [["u", "a", "b", "c", "d", "f.ttf"]] := by
  simp +decide [scan_for_fonts, topScanEntries, scanDir, scanEntries, listdirE,
    resolve, lookupName, isDirAt, fs9]

/-- Claim C9, amended: the recursion counter starts at 0 at the root's
immediate subdirectories and the scan stops once it exceeds max_depth, so
every collected path has at most max_depth + 2 components beyond the
scanned root (a chain of max_depth + 1 directories plus the filename); the
scan itself is a total function of the directory tree. -/
theorem C9_depth_bound (fs : Node) (d : List String) (maxd : Nat)
    (l : List (List String)) (h : scan_for_fonts fs d maxd = Except.ok l) :
    ∀ p ∈ l, p.length ≤ d.length + maxd + 2 :=
  scan_ub fs d maxd l h

/-- Claim C9, witness: the depth bound evaluated on the concrete deep
chain. -/
theorem C9_witness :
    (["u", "a", "b", "c", "d", "f.ttf"] : List String).length ≤
      (["u"] : List String).length + 3 + 2 :=
  C9_depth_bound fs9 ["u"] 3 [["u", "a", "b", "c", "d", "f.ttf"]]
    (by simp +decide [scan_for_fonts, topScanEntries, scanDir, scanEntries, listdirE,
      resolve, lookupName, isDirAt, fs9])
    ["u", "a", "b", "c", "d", "f.ttf"] (by decide)

/-- Claim C10: a file lying directly in the scanned root directory is never
returned by the Locator, whatever its name: every returned path has at
least two components beyond the root, because the top-level loop only
recurses into subdirectories and never tests the root's file entries. -/
theorem C10_root_files_ignored (fs : Node) (d : List String) (maxd : Nat)
    (l : List (List String)) (h : scan_for_fonts fs d maxd = Except.ok l)
    (name : String) : d ++ [name] ∉ l := by
  intro hmem
  have h1 := scan_lb fs d maxd l h (d ++ [name]) hmem
  have h2 : (d ++ [name]).length = d.length + 1 := by simp
  omega

/-- Claim C10, witness: a root-level font file of a concrete tree is absent
from the scan result even though a nested font is found. -/
theorem C10_witness : ["u", "x.ttf"] ∉ [["u", "sub", "y.otf"]] :=
  C10_root_files_ignored fsC10 ["u"] 3 [["u", "sub", "y.otf"]]
    (by simp +decide [scan_for_fonts, topScanEntries, scanDir, scanEntries, listdirE,
      resolve, lookupName, isDirAt, fsC10]) "x.ttf"

theorem dropLast_sub (l : List String) : ∃ t, l.dropLast ++ t = l := by
  by_cases h : l = []
  · exact ⟨[], by simp [h]⟩
  · exact ⟨[l.getLast h], List.dropLast_append_getLast h⟩

/-- Claim C1, counterexample: an existing directory whose listing raises
PermissionError makes process_upload_directory raise instead of returning a
structured result, although the input path is an existing directory. -/
theorem C1_counterexample :
    isDirAt fsC1 ["up"] = true ∧
    process_upload_directory fsC1 ["up"] true = Except.error PyError.permissionError :=
  ⟨rfl, rfl⟩

/-- Claim C1, amended: provided the upload directory (when it is a
directory) and its FontUploads child (when that is a directory) are
listable, and no plain file occupies the Fonts path at the resolved upload
root, process_upload_directory returns a structured result and raises no
exception, and the success flag is false exactly when the input path is not
an existing directory. -/
theorem C1_structured_result (fs : Node) (d : List String) (w : Bool)
    (h1 : isDirAt fs d = true → dirAccessible fs d = true)
    (h2 : isDirAt fs (d ++ ["FontUploads"]) = true →
      dirAccessible fs (d ++ ["FontUploads"]) = true)
    (h3 : isFileAt fs (resolveUploadRoot d ++ ["Fonts"]) = false) :
    ∃ r fs2 w2, process_upload_directory fs d w = Except.ok (r, fs2, w2) ∧
      (r.success = false ↔ isDirAt fs d = false) := by
  by_cases hd : isDirAt fs d = true
  · obtain ⟨l, hscan⟩ := scan_ok fs d 3 (h1 hd) h2
    obtain ⟨fs1, hmk, _⟩ := makedirs_for_process fs d hd h3
    by_cases hl : l = []
    · subst hl
      refine ⟨_, _, _, process_eq_nofound fs d w hd hscan fs1 hmk, ?_⟩
      simp [hd]
    · refine ⟨_, _, _, process_eq_found fs d w l hd hscan hl fs1 hmk, ?_⟩
      simp [hd]
  · have hdf : isDirAt fs d = false := by simpa using hd
    refine ⟨_, _, _, process_eq_notdir fs d w hdf, ?_⟩
    simp [hdf]

/-- Claim C1, witness: the amended statement evaluated on a concrete
accessible upload directory. -/
theorem C1_witness :
    ∃ r fs2 w2, process_upload_directory fsC1w ["up"] true = Except.ok (r, fs2, w2) ∧
      (r.success = false ↔ isDirAt fsC1w ["up"] = false) :=
  C1_structured_result fsC1w ["up"] true (by decide) (by decide) (by decide)

/-- Claim C2, counterexample: from the starting path /a/myuploads/id/sub,
whose segments contain uploads only as a proper suffix of the longer
segment myuploads, the resolver does not return the input unchanged: it
recognizes /a/myuploads/id as an upload root, because the regular
expression search matches uploads as a bare substring. -/
theorem C2_counterexample :
    resolveUploadRoot ["a", "myuploads", "id", "sub"] = ["a", "myuploads", "id"] ∧
    (["a", "myuploads", "id"] : List String) ≠ ["a", "myuploads", "id", "sub"] := by
  decide

/-- Claim C2, amended: the resolver returns the first of at most three
candidates, the input path, its parent and its grandparent, the walk
stopping at the filesystem root, whose rendered path string contains the
substring uploads and matches the search pattern: some occurrence of the
literal text uploads followed by a separator and a nonempty final run of
characters that are neither separators nor reserved; with no matching
candidate the input path is returned unchanged.  Every candidate is an
ancestor-or-self of the input (a segmentwise path prefix).  The occurrence
of uploads may sit at the end of a longer segment such as myuploads. -/
theorem C2_resolver_characterization (p : List String) :
    resolveUploadRoot p = ((resolverCandidates p).find? uploadRootCond).getD p ∧
    ∀ c ∈ resolverCandidates p, ∃ t, c ++ t = p := by
  constructor
  · cases h1 : uploadRootCond p with
    | true => simp [resolveUploadRoot, findUploadRoot, resolverCandidates, h1, List.find?]
    | false =>
      cases he1 : p.isEmpty with
      | true =>
        simp [resolveUploadRoot, findUploadRoot, resolverCandidates, h1, he1, List.find?]
      | false =>
        cases h2 : uploadRootCond p.dropLast with
        | true =>
          simp [resolveUploadRoot, findUploadRoot, resolverCandidates, h1, he1, h2,
            List.find?]
        | false =>
          cases he2 : p.dropLast.isEmpty with
          | true =>
            simp [resolveUploadRoot, findUploadRoot, resolverCandidates, h1, he1, h2,
              he2, List.find?]
          | false =>
            cases h3 : uploadRootCond p.dropLast.dropLast with
            | true =>
              simp [resolveUploadRoot, findUploadRoot, resolverCandidates, h1, he1, h2,
                he2, h3, List.find?]
            | false =>
              simp [resolveUploadRoot, findUploadRoot, resolverCandidates, h1, he1, h2,
                he2, h3, List.find?]
  · intro c hc
    cases he1 : p.isEmpty with
    | true =>
      simp [resolverCandidates, he1] at hc
      subst hc
      exact ⟨[], by simp⟩
    | false =>
      cases he2 : p.dropLast.isEmpty with
      | true =>
        simp [resolverCandidates, he1, he2] at hc
        rcases hc with h | h
        · subst h; exact ⟨[], by simp⟩
        · subst h; exact dropLast_sub p
      | false =>
        simp [resolverCandidates, he1, he2] at hc
        rcases hc with h | h | h
        · subst h; exact ⟨[], by simp⟩
        · subst h; exact dropLast_sub p
        · subst h
          obtain ⟨t1, ht1⟩ := dropLast_sub p.dropLast
          obtain ⟨t2, ht2⟩ := dropLast_sub p
          exact ⟨t1 ++ t2, by rw [← List.append_assoc, ht1, ht2]⟩

/-- Claim C2, witness: the characterization evaluated on a concrete path. -/
theorem C2_witness :
    resolveUploadRoot ["x", "uploads", "s1", "raw"] =
      ((resolverCandidates ["x", "uploads", "s1", "raw"]).find? uploadRootCond).getD
        ["x", "uploads", "s1", "raw"] ∧
    ∀ c ∈ resolverCandidates ["x", "uploads", "s1", "raw"],
      ∃ t, c ++ t = ["x", "uploads", "s1", "raw"] :=
  C2_resolver_characterization ["x", "uploads", "s1", "raw"]

/-- Claim C3, counterexample: an existing directory with no font file but
with a plain file named Fonts at the resolved root makes os.makedirs raise
FileExistsError, so process_upload_directory raises instead of returning a
success result, and main propagates the exception rather than exiting 0. -/
theorem C3_counterexample :
    isDirAt fsC3 ["u"] = true ∧ scan_for_fonts fsC3 ["u"] 3 = Except.ok [] ∧
    process_upload_directory fsC3 ["u"] true = Except.error PyError.fileExistsError ∧
    main_result fsC3 ["u"] true = Except.error PyError.fileExistsError :=
  ⟨rfl, rfl, rfl, rfl⟩

/-- Claim C3, amended: for an accessible upload directory whose subtree
holds no file with a recognized font extension, and whose resolved upload
root is not obstructed by a plain file named Fonts, the result has
fontsFound 0, fontsCopied 0 and success true, a Fonts directory exists at
the resolved upload root afterwards, and the entry point exits 0; for any
input that is not an existing directory the entry point exits 1. -/
theorem C3_no_fonts_success (fs : Node) (d : List String) (w : Bool) (a : Bool)
    (es : List (String × Node))
    (hres : resolve fs d = some (Node.dir a es))
    (hno : entriesHaveFont es = false)
    (h1 : dirAccessible fs d = true)
    (h2 : isDirAt fs (d ++ ["FontUploads"]) = true →
      dirAccessible fs (d ++ ["FontUploads"]) = true)
    (h3 : isFileAt fs (resolveUploadRoot d ++ ["Fonts"]) = false) :
    (∃ fs1, process_upload_directory fs d w = Except.ok
      ({ success := true, error := none, fontsFound := some 0, fontsCopied := some 0,
         directory := d, uploadRoot := some (resolveUploadRoot d),
         fontsDirectory := some (resolveUploadRoot d ++ ["Fonts"]), copiedFonts := none },
       fs1, none) ∧ isDirAt fs1 (resolveUploadRoot d ++ ["Fonts"]) = true ∧
      main_result fs d w = Except.ok 0) ∧
    ∀ (fs0 : Node) (d0 : List String) (w0 : Bool), isDirAt fs0 d0 = false →
      main_result fs0 d0 w0 = Except.ok 1 := by
  constructor
  · have hd : isDirAt fs d = true := by simp [isDirAt, hres]
    obtain ⟨l, hscan⟩ := scan_ok fs d 3 h1 h2
    have hl : l = [] := scan_nofont fs d 3 a es l hres hno hscan
    subst hl
    obtain ⟨fs1, hmk, hdir⟩ := makedirs_for_process fs d hd h3
    have hpr := process_eq_nofound fs d w hd hscan fs1 hmk
    exact ⟨fs1, hpr, hdir, by simp [main_result, hpr]⟩
  · intro fs0 d0 w0 hd0
    simp [main_result, process_eq_notdir fs0 d0 w0 hd0]

/-- Claim C3, witness: the amended statement evaluated on a concrete
font-free upload directory. -/
theorem C3_witness :
    (∃ fs1, process_upload_directory fsC3w ["u"] true = Except.ok
      ({ success := true, error := none, fontsFound := some 0, fontsCopied := some 0,
         directory := ["u"], uploadRoot := some (resolveUploadRoot ["u"]),
         fontsDirectory := some (resolveUploadRoot ["u"] ++ ["Fonts"]),
         copiedFonts := none },
       fs1, none) ∧ isDirAt fs1 (resolveUploadRoot ["u"] ++ ["Fonts"]) = true ∧
      main_result fsC3w ["u"] true = Except.ok 0) ∧
    ∀ (fs0 : Node) (d0 : List String) (w0 : Bool), isDirAt fs0 d0 = false →
      main_result fs0 d0 w0 = Except.ok 1 :=
  C3_no_fonts_success fsC3w ["u"] true true fsC3wEs rfl
    (by simp +decide [fsC3wEs, entriesHaveFont, nodeHasFont]) rfl (by decide) (by decide)

/-- Claim C6, counterexample: with at least one font found but a plain file
named Fonts obstructing os.makedirs at the resolved root, the orchestrator
raises before writing any summary, so a font-bearing invocation does not
always produce the summary file and a returned success result. -/
theorem C6_counterexample :
    scan_for_fonts fsC6 ["u"] 3 = Except.ok [["u", "a", "x.ttf"]] ∧
    process_upload_directory fsC6 ["u"] true = Except.error PyError.fileExistsError := by
  have hscan : scan_for_fonts fsC6 ["u"] 3 = Except.ok [["u", "a", "x.ttf"]] := by
    simp +decide [scan_for_fonts, topScanEntries, scanDir, scanEntries, listdirE,
      resolve, lookupName, isDirAt, fsC6]
  refine ⟨hscan, ?_⟩
  have hd : isDirAt fsC6 ["u"] = true := rfl
  have hmk : makedirs fsC6 (resolveUploadRoot ["u"] ++ ["Fonts"]) = none := rfl
  simp [process_upload_directory, hd, hscan, hmk]

/-- Claim C6, amended: whenever the scan finds at least one font file and
the Fonts path at the resolved root is not obstructed by a plain file, the
orchestrator returns a success result whose dict has exactly the seven
fields success, fontsFound, fontsCopied, directory, uploadRoot,
fontsDirectory and copiedFonts (and no error field), the object handed to
json.dump is that very result and lands in the original upload directory,
and when the write raises the caught exception leaves the returned result
with success still true. -/
theorem C6_summary_is_result (fs : Node) (d : List String) (w : Bool)
    (l : List (List String)) (hd : isDirAt fs d = true)
    (hscan : scan_for_fonts fs d 3 = Except.ok l) (hne : l ≠ [])
    (h3 : isFileAt fs (resolveUploadRoot d ++ ["Fonts"]) = false) :
    ∃ r fs3, process_upload_directory fs d w =
        Except.ok (r, fs3, if w then some r else none) ∧
      r.success = true ∧ r.error = none ∧ r.fontsFound.isSome = true ∧
      r.fontsCopied.isSome = true ∧ r.uploadRoot.isSome = true ∧
      r.fontsDirectory.isSome = true ∧ r.copiedFonts.isSome = true ∧
      (w = true → isFileAt fs3 (d ++ ["font_processing_summary.json"]) = true) := by
  obtain ⟨fs1, hmk, _⟩ := makedirs_for_process fs d hd h3
  have hpr := process_eq_found fs d w l hd hscan hne fs1 hmk
  refine ⟨_, _, hpr, rfl, rfl, rfl, rfl, rfl, rfl, rfl, ?_⟩
  intro hw
  subst hw
  have hd1 : isDirAt fs1 d = true :=
    makedirs_dir_mono (resolveUploadRoot d ++ ["Fonts"]) fs fs1 d hmk hd
  have hd2 : isDirAt (copy_fonts fs1 l (resolveUploadRoot d ++ ["Fonts"])).2 d = true :=
    copy_fonts_dir_mono l fs1 (resolveUploadRoot d ++ ["Fonts"]) d hd1
  have hins := insertFile_concat_self d
    (copy_fonts fs1 l (resolveUploadRoot d ++ ["Fonts"])).2
    "font_processing_summary.json" "summary" hd2
  simp [isFileAt, hins]

/-- Claim C6, witness: the amended statement evaluated on a concrete
one-font upload directory. -/
theorem C6_witness :
    ∃ r fs3, process_upload_directory fsC6w ["u"] true =
        Except.ok (r, fs3, if true then some r else none) ∧
      r.success = true ∧ r.error = none ∧ r.fontsFound.isSome = true ∧
      r.fontsCopied.isSome = true ∧ r.uploadRoot.isSome = true ∧
      r.fontsDirectory.isSome = true ∧ r.copiedFonts.isSome = true ∧
      (true = true → isFileAt fs3 (["u"] ++ ["font_processing_summary.json"]) = true) :=
  C6_summary_is_result fsC6w ["u"] true [["u", "a", "x.ttf"]] rfl
    (by simp +decide [scan_for_fonts, topScanEntries, scanDir, scanEntries, listdirE,
      resolve, lookupName, isDirAt, fsC6w]) (by decide) (by decide)

end FontProc